import Mathlib

/-!
Verification of the composite-key codec and range-query planner of the
`table_to_json` chaincode (`src/chaincode/table_to_json_chaincode.go`).

Byte strings are modelled as `List Char` (the keys and values in the demo are
ASCII strings).  The chaincode state is an association list from keys to
values; `PutState` prepends and `GetState` returns the most recent binding,
which models overwrite semantics.
-/

namespace TableToJson

abbrev Bytes := List Char

abbrev ChainState := List (Bytes × Bytes)

/-- Model of Go `strconv.Itoa` on non-negative integers: the decimal digit
string of `n`, with no padding.  `Nat.toDigits 10` produces exactly this. -/
def itoa (n : Nat) : Bytes := Nat.toDigits 10 n

/-- The field-segment part of `createCompoundKey` (the `for _, key := range
keys` loop, lines 336-339): for each field, the decimal length `strconv.Itoa
(len(key))` followed by the field bytes, all concatenated. -/
def encodeFields : List Bytes → Bytes
  | [] => []
  | k :: ks => itoa k.length ++ k ++ encodeFields ks

/-- `createCompoundKey` (lines 333-341): writes `objectType`, then for each
key its decimal length and its bytes, and returns the buffer together with a
`nil` error (the Go function always returns `nil` for the error). -/
def createCompoundKey (objectType : Bytes) (keys : List Bytes) : Bytes × Option String :=
  (objectType ++ encodeFields keys, none)

/-- Strict lexicographic byte order on keys, the ascending order in which the
underlying ordered key-value store (`RangeQueryState`) enumerates keys: a
proper initial segment precedes its extensions, otherwise the first differing
byte decides. -/
def keyLt : Bytes → Bytes → Bool
  | _, [] => false
  | [], _ :: _ => true
  | a :: as, b :: bs => decide (a < b) || (decide (a = b) && keyLt as bs)

/-- Reflexive closure of `keyLt`. -/
def keyLe (x y : Bytes) : Bool := keyLt x y || decide (x = y)

/-- Membership of a key `x` in the half-open range `[startKey, endKey)`
scanned by `RangeQueryState startKey endKey`. -/
def inRange (startKey endKey x : Bytes) : Bool := keyLe startKey x && keyLt x endKey

/-- The `[startKey, endKey)` pair that `partialCompoundKeyQuery` (lines
343-354) hands to `RangeQueryState`: the encoded partial key with `"1"`
appended as the lower bound and with `":"` appended as the upper bound. -/
def compoundKeyRange (objectType : Bytes) (keys : List Bytes) : Bytes × Bytes :=
  ((createCompoundKey objectType keys).1 ++ ['1'], (createCompoundKey objectType keys).1 ++ [':'])

/-- A `StateRangeQueryIterator`: the remaining `(key, value)` entries it will
yield, and whether `Close` has been called on it. -/
structure KeysIter where
  entries : ChainState
  closed : Bool

/-- `Close` on a range-query iterator. -/
def closeIter (it : KeysIter) : KeysIter := { it with closed := true }

/-- `stub.RangeQueryState startKey endKey`: an open iterator over the store's
entries whose keys lie in `[startKey, endKey)`, in store order (the store is
kept in ascending key order). -/
def rangeQueryState (store : ChainState) (startKey endKey : Bytes) : KeysIter :=
  ⟨store.filter (fun kv => inRange startKey endKey kv.1), false⟩

/-- `partialCompoundKeyQuery` (lines 343-354; the Go identifier starts with a
word this development cannot use in a Lean name, so the name is shortened):
encodes the partial key, opens a `RangeQueryState` iterator on
`[keyString+"1", keyString+":")`, and — because of the `defer keysIter.Close()`
on line 351, which runs before the function returns — hands back the iterator
after `Close` has been invoked on it. -/
def compoundKeyQuery (store : ChainState) (objectType : Bytes) (keys : List Bytes) : KeysIter :=
  closeIter (rangeQueryState store
    ((createCompoundKey objectType keys).1 ++ ['1'])
    ((createCompoundKey objectType keys).1 ++ [':']))

/-- The sequence of `(key, value)` records a caller such as
`get_blue_marbles_json` (lines 302-327) obtains by iterating the query
iterator with `HasNext`/`Next`. -/
def scanStore (store : ChainState) (objectType : Bytes) (keys : List Bytes) : ChainState :=
  (compoundKeyQuery store objectType keys).entries

/-- The ordering-regression store from the spec's testable properties: two
records whose single key fields are `"ab"` (length 2) and `"abcdefghij"`
(length 10), listed in ascending physical-key order (the 10-byte record's key
`"T10abcdefghij"` sorts below `"T2ab"` because `'1' < '2'`). -/
def regressionStore : ChainState :=
  [ ((createCompoundKey ['T'] [['a', 'b', 'c', 'd', 'e', 'f', 'g', 'h', 'i', 'j']]).1, ['v', '1']),
    ((createCompoundKey ['T'] [['a', 'b']]).1, ['v', '2']) ]

/-- `stub.PutState key value`: bind `key` to `value` (newest binding first,
shadowing any older one — overwrite semantics under `getState`). -/
def putState (st : ChainState) (k v : Bytes) : ChainState := (k, v) :: st

/-- `stub.GetState key`: the most recent value bound to `key`, if any. -/
def getState : ChainState → Bytes → Option Bytes
  | [], _ => none
  | (k', v) :: rest, k => if k' = k then some v else getState rest k

/-- The `PutState` step of `init_marble_json` (line 204): store the payload
under the compound key built from the object type and the key fields. -/
def put (st : ChainState) (objectType : Bytes) (fields : List Bytes) (payload : Bytes) : ChainState :=
  putState st (createCompoundKey objectType fields).1 payload

/-- The `GetState` step of `get_marble_json` (line 250): read the value stored
under the compound key built from the object type and the key fields. -/
def getExact (st : ChainState) (objectType : Bytes) (fields : List Bytes) : Option Bytes :=
  getState st (createCompoundKey objectType fields).1

/-- The `Marble` struct (lines 37-43). -/
structure Marble where
  objectType : Bytes
  name : Bytes
  color : Bytes
  size : Int
  owner : Bytes

/-- `set_owner` (lines 359-386).  JSON (un)marshalling is an external opaque
byte codec (spec §1), so it is passed in as a pair of functions; `unmarshal`
of absent state models `json.Unmarshal` leaving the zero `Marble`.  With
fewer than two arguments the function errors out (`none`); otherwise it reads
the state at the raw key `args[0]`, replaces the owner with `args[1]`, and
rewrites the state at the same raw key `args[0]`. -/
def set_owner (unmarshal : Bytes → Marble) (marshal : Marble → Bytes)
    (st : ChainState) (args : List Bytes) : Option ChainState :=
  match args with
  | a0 :: a1 :: _ =>
    some (putState st a0 (marshal { unmarshal ((getState st a0).getD []) with owner := a1 }))
  | _ => none

/-! ### Basic facts about the decimal length encoding -/

theorem itoa_small (n : Nat) (h : n < 10) : itoa n = [Nat.digitChar n] := by
  unfold itoa Nat.toDigits Nat.toDigitsCore
  simp [Nat.div_eq_of_lt h, Nat.mod_eq_of_lt h]

theorem digitChar_inj (a b : Nat) (ha : a ≤ 9) (hb : b ≤ 9)
    (h : Nat.digitChar a = Nat.digitChar b) : a = b := by
  interval_cases a <;> interval_cases b <;> first | rfl | exact absurd h (by decide)

theorem digitChar_bounds (n : Nat) (h1 : 1 ≤ n) (h9 : n ≤ 9) :
    '1' ≤ Nat.digitChar n ∧ Nat.digitChar n < ':' := by
  interval_cases n <;> exact ⟨by decide, by decide⟩

/-! ### Basic facts about the byte order on keys -/

theorem keyLt_nil_right (x : Bytes) : keyLt x [] = false := by cases x <;> rfl

theorem keyLt_cons_cons (a b : Char) (as bs : Bytes) :
    keyLt (a :: as) (b :: bs) = (decide (a < b) || (decide (a = b) && keyLt as bs)) := rfl

theorem keyLe_nil_left (y : Bytes) : keyLe [] y = true := by
  cases y <;> simp [keyLe, keyLt]

theorem keyLe_nil_right_cons (a : Char) (as : Bytes) : keyLe (a :: as) [] = false := by
  simp [keyLe, keyLt_nil_right]

theorem keyLe_cons_cons (a b : Char) (as bs : Bytes) :
    keyLe (a :: as) (b :: bs) = (decide (a < b) || (decide (a = b) && keyLe as bs)) := by
  by_cases h : a = b <;> simp [keyLe, keyLt_cons_cons, h, lt_irrefl]

theorem keyLt_append_left (p a b : Bytes) : keyLt (p ++ a) (p ++ b) = keyLt a b := by
  induction p with
  | nil => rfl
  | cons c p ih => simp [keyLt_cons_cons, ih]

theorem keyLe_append_left (p a b : Bytes) : keyLe (p ++ a) (p ++ b) = keyLe a b := by
  induction p with
  | nil => rfl
  | cons c p ih => simp [keyLe_cons_cons, ih]

/-- Keys in the half-open range `[p ++ lo, p ++ hi)` are exactly the
extensions `p ++ r` of `p` with `r` in `[lo, hi)`. -/
theorem inRange_append (p : Bytes) : ∀ (x lo hi : Bytes),
    inRange (p ++ lo) (p ++ hi) x = true ↔ ∃ r, x = p ++ r ∧ inRange lo hi r = true := by
  induction p with
  | nil => intro x lo hi; simp
  | cons d p ih =>
    intro x lo hi
    cases x with
    | nil => simp [inRange, keyLe_nil_right_cons]
    | cons e x' =>
      by_cases h : d = e
      · subst h
        simp [inRange, keyLe_cons_cons, keyLt_cons_cons, lt_irrefl] at ih ⊢
        exact ih x' lo hi
      · simp only [List.cons_append, inRange, keyLe_cons_cons, keyLt_cons_cons]
        constructor
        · intro hx
          exfalso
          simp [h, Ne.symm h] at hx
          exact absurd hx.2 (lt_asymm hx.1)
        · rintro ⟨r, hr, -⟩
          exact absurd (List.head_eq_of_cons_eq hr).symm h

/-- Keys in `[['1'], [':'])` are exactly the nonempty strings whose first
byte is a decimal digit between `'1'` and `'9'`. -/
theorem inRange_one_colon (r : Bytes) :
    inRange ['1'] [':'] r = true ↔ ∃ c s, r = c :: s ∧ '1' ≤ c ∧ c < ':' := by
  cases r with
  | nil => simp [inRange, keyLe_nil_right_cons]
  | cons c s =>
    simp [inRange, keyLe_cons_cons, keyLt_cons_cons, keyLe_nil_left, keyLt_nil_right,
      le_iff_lt_or_eq]

/-- Membership in the planner's range `[p ++ "1", p ++ ":")`: exactly the
keys of the form `p ++ c :: r` with `'1' ≤ c < ':'`. -/
theorem mem_compoundRange (p x : Bytes) :
    inRange (p ++ ['1']) (p ++ [':']) x = true ↔
      ∃ c r, x = p ++ c :: r ∧ '1' ≤ c ∧ c < ':' := by
  rw [inRange_append]
  constructor
  · rintro ⟨r, rfl, hr⟩
    rcases (inRange_one_colon r).1 hr with ⟨c, s, rfl, h1, h2⟩
    exact ⟨c, s, rfl, h1, h2⟩
  · rintro ⟨c, r, rfl, h1, h2⟩
    exact ⟨c :: r, rfl, (inRange_one_colon _).2 ⟨c, r, rfl, h1, h2⟩⟩

/-! ### Parsing the field segments back out of an encoded key -/

theorem encodeFields_append (a b : List Bytes) :
    encodeFields (a ++ b) = encodeFields a ++ encodeFields b := by
  induction a with
  | nil => rfl
  | cons f a ih => simp [encodeFields, ih]

theorem encodeFields_eq_nil (ts : List Bytes)
    (ht : ∀ f ∈ ts, 1 ≤ f.length ∧ f.length ≤ 9)
    (h : encodeFields ts = []) : ts = [] := by
  cases ts with
  | nil => rfl
  | cons f ts =>
    have hf := ht f (List.mem_cons_self f ts)
    rw [encodeFields, itoa_small f.length (by omega)] at h
    simp at h

/-- With single-digit field lengths the encoding parses deterministically:
if the segment stream of `t` extends the segment stream of `a` then `t`
begins with the fields of `a` and the leftover is the segment stream of the
remaining fields of `t`. -/
theorem encodeFields_cancel (a : List Bytes) : ∀ (t : List Bytes) (r : Bytes),
    (∀ f ∈ a, 1 ≤ f.length ∧ f.length ≤ 9) →
    (∀ f ∈ t, 1 ≤ f.length ∧ f.length ≤ 9) →
    encodeFields t = encodeFields a ++ r →
    t.take a.length = a ∧ encodeFields (t.drop a.length) = r := by
  induction a with
  | nil => intro t r _ _ h; simpa using h
  | cons f a ih =>
    intro t r ha ht h
    cases t with
    | nil =>
      have hf := ha f (List.mem_cons_self f a)
      simp [encodeFields, itoa_small f.length (by omega)] at h
    | cons g t =>
      have hf := ha f (List.mem_cons_self f a)
      have hg := ht g (List.mem_cons_self g t)
      rw [encodeFields, encodeFields, itoa_small f.length (by omega),
        itoa_small g.length (by omega)] at h
      simp only [List.cons_append, List.nil_append, List.append_assoc, List.cons.injEq] at h
      obtain ⟨hd, htl⟩ := h
      have hlen : g.length = f.length := digitChar_inj _ _ (by omega) (by omega) hd
      obtain ⟨hgf, hrest⟩ := List.append_inj htl hlen
      obtain ⟨ih1, ih2⟩ := ih t r (fun x hx => ha x (List.mem_cons_of_mem f hx))
        (fun x hx => ht x (List.mem_cons_of_mem g hx)) hrest
      constructor
      · simp [List.take_succ_cons, ih1, hgf]
      · simpa using ih2

/-! ### Claims -/

/-- C1, counterexample.  The claimed range completeness fails on the code:
(i) with `k = N` (full tuple as the partial key) the tuple's own encoded key
lies outside the computed range even though its first `k` fields equal the
supplied fields; (ii) a key of a different ObjectType (`"T1a"` with field
`"1"`) lies inside the range computed for ObjectType `"T"`; (iii) a tuple
extending the partial key by an empty field matches the partial key but its
encoded key lies below the range's start. -/
theorem c1_counterexample :
    inRange (compoundKeyRange ['T'] [['a']]).1 (compoundKeyRange ['T'] [['a']]).2
      (createCompoundKey ['T'] [['a']]).1 = false ∧
    inRange (compoundKeyRange ['T'] [['a']]).1 (compoundKeyRange ['T'] [['a']]).2
      (createCompoundKey ['T', '1', 'a'] [['1']]).1 = true ∧
    inRange (compoundKeyRange ['T'] [['a']]).1 (compoundKeyRange ['T'] [['a']]).2
      (createCompoundKey ['T'] [['a'], []]).1 = false := by decide

/-- C1, amended.  Range completeness restricted to a single ObjectType, to
partial keys strictly shorter than the tuple (`k < N`), and to fields of byte
length 1–9 (single-digit decimal length marks): the tuple's encoded key lies
in the planner's range `[key+"1", key+":")` iff the tuple's first `k` fields
equal the supplied fields. -/
theorem c1_range_complete_restricted (objectType : Bytes) (t p : List Bytes)
    (ht : ∀ f ∈ t, 1 ≤ f.length ∧ f.length ≤ 9)
    (hp : ∀ f ∈ p, 1 ≤ f.length ∧ f.length ≤ 9)
    (hk : p.length < t.length) :
    inRange (compoundKeyRange objectType p).1 (compoundKeyRange objectType p).2
      (createCompoundKey objectType t).1 = true ↔ t.take p.length = p := by
  simp only [compoundKeyRange, createCompoundKey]
  rw [mem_compoundRange]
  constructor
  · rintro ⟨c, r, heq, h1, h2⟩
    have heq' : encodeFields t = encodeFields p ++ (c :: r) := by
      have h2 : objectType ++ encodeFields t = objectType ++ (encodeFields p ++ (c :: r)) := by
        simpa [List.append_assoc] using heq
      exact List.append_cancel_left h2
    exact (encodeFields_cancel p t (c :: r) hp ht heq').1
  · intro htake
    have hd : t.drop p.length ≠ [] := by
      intro hnil
      have := List.drop_eq_nil_iff.1 hnil
      omega
    obtain ⟨f, rest, hfr⟩ := List.exists_cons_of_ne_nil hd
    have hf : 1 ≤ f.length ∧ f.length ≤ 9 :=
      ht f (List.drop_subset _ _ (hfr ▸ List.mem_cons_self f rest))
    have hsplit : encodeFields t = encodeFields p ++
        (Nat.digitChar f.length :: (f ++ encodeFields rest)) := by
      conv_lhs => rw [← List.take_append_drop p.length t, htake, hfr]
      rw [encodeFields_append, encodeFields, itoa_small f.length (by omega)]
      simp
    exact ⟨Nat.digitChar f.length, f ++ encodeFields rest, by simp [hsplit],
      (digitChar_bounds _ (by omega) (by omega)).1,
      (digitChar_bounds _ (by omega) (by omega)).2⟩

/-- C1, witness for the amended theorem: the key of tuple `["a","b"]` lies in
the range computed for the partial key `["a"]`. -/
theorem c1_witness :
    inRange (compoundKeyRange ['T'] [['a']]).1 (compoundKeyRange ['T'] [['a']]).2
      (createCompoundKey ['T'] [['a'], ['b']]).1 = true :=
  (c1_range_complete_restricted ['T'] [['a'], ['b']] [['a']]
    (by decide) (by decide) (by decide)).mpr (by decide)

/-- C2, counterexample.  The encoding is not injective: the tuple consisting
of the field `"0"` followed by ten empty fields and the tuple consisting of
one field of ten `'0'` bytes are distinct but encode to the same key
`"T100000000000"` (the decimal length `10` is indistinguishable from length
`1` followed by content and zero-length segments). -/
theorem c2_counterexample :
    (createCompoundKey ['T'] [['0'], [], [], [], [], [], [], [], [], [], []]).1 =
      (createCompoundKey ['T'] [['0', '0', '0', '0', '0', '0', '0', '0', '0', '0']]).1 ∧
    ([['0'], [], [], [], [], [], [], [], [], [], []] : List Bytes) ≠
      [['0', '0', '0', '0', '0', '0', '0', '0', '0', '0']] := by decide

/-- C2, amended.  Injectivity restricted to tuples all of whose fields have
byte length 1–9 (so every decimal length mark is a single nonzero digit):
distinct such tuples, of equal or different arity, encode to distinct keys. -/
theorem c2_injective_restricted (objectType : Bytes) (a b : List Bytes)
    (ha : ∀ f ∈ a, 1 ≤ f.length ∧ f.length ≤ 9)
    (hb : ∀ f ∈ b, 1 ≤ f.length ∧ f.length ≤ 9)
    (hne : a ≠ b) :
    (createCompoundKey objectType a).1 ≠ (createCompoundKey objectType b).1 := by
  intro h
  apply hne
  have h' : encodeFields a = encodeFields b ++ [] := by
    have h2 : objectType ++ encodeFields a = objectType ++ encodeFields b := h
    simpa using List.append_cancel_left h2
  obtain ⟨h1, h2⟩ := encodeFields_cancel b a [] hb ha h'
  have h3 : a.drop b.length = [] :=
    encodeFields_eq_nil _ (fun f hf => ha f (List.drop_subset _ _ hf)) h2
  calc a = a.take b.length ++ a.drop b.length := (List.take_append_drop _ _).symm
    _ = b := by rw [h1, h3, List.append_nil]

/-- C2, witness for the amended theorem. -/
theorem c2_witness :
    (createCompoundKey ['T'] [['x']]).1 ≠ (createCompoundKey ['T'] [['y']]).1 :=
  c2_injective_restricted ['T'] [['x']] [['y']] (by decide) (by decide) (by decide)

/-- C3, counterexample.  The encoding is not free of byte-prefix
relationships between distinct tuples: the key of `["x"]` (namely `"T1x"`)
is a byte-prefix of the key of `["x","y"]` (namely `"T1x1y"`), exhibited by
the explicit leftover `"1y"`. -/
theorem c3_counterexample :
    (createCompoundKey ['T'] [['x'], ['y']]).1 =
      (createCompoundKey ['T'] [['x']]).1 ++ ['1', 'y'] ∧
    ([['x']] : List Bytes) ≠ [['x'], ['y']] := by decide

/-- C3, amended.  Byte-prefix-freedom restricted to tuples of equal arity
with all field lengths 1–9: for distinct such tuples the key of one is never
a byte-prefix of the key of the other (no leftover `r` can extend one key
into the other).  Tuples of different arity always violate it: the key of a
tuple is a byte-prefix of the key of each of its extensions. -/
theorem c3_same_arity_incomparable (objectType : Bytes) (a b : List Bytes)
    (ha : ∀ f ∈ a, 1 ≤ f.length ∧ f.length ≤ 9)
    (hb : ∀ f ∈ b, 1 ≤ f.length ∧ f.length ≤ 9)
    (hlen : a.length = b.length) (hne : a ≠ b) :
    ∀ r, (createCompoundKey objectType b).1 ≠ (createCompoundKey objectType a).1 ++ r := by
  intro r h
  apply hne
  have h' : encodeFields b = encodeFields a ++ r := by
    have h2 : objectType ++ encodeFields b = objectType ++ (encodeFields a ++ r) := by
      simpa [createCompoundKey, List.append_assoc] using h
    exact List.append_cancel_left h2
  have h1 := (encodeFields_cancel a b r ha hb h').1
  rw [hlen, List.take_length] at h1
  exact h1.symm

/-- C3, witness for the amended theorem. -/
theorem c3_witness :
    (createCompoundKey ['T'] [['y']]).1 ≠ (createCompoundKey ['T'] [['x']]).1 ++ ['q'] :=
  c3_same_arity_incomparable ['T'] [['x']] [['y']]
    (by decide) (by decide) (by decide) (by decide) ['q']

/-- C4, counterexample.  The range does not start at the encoded partial key
(it starts at that key with `'1'` appended), and its end is not the
last-byte increment of the partial key (`"T1a"` incremented is `"T1b"`, but
the code's upper bound is `"T1a:"`). -/
theorem c4_counterexample :
    (compoundKeyRange ['T'] [['a']]).1 ≠ (createCompoundKey ['T'] [['a']]).1 ∧
    (compoundKeyRange ['T'] [['a']]).2 ≠ ['T', '1', 'b'] := by decide

/-- C4, amended.  The planner's bounds are the encoded partial key with the
sentinel byte `'1'` appended (inclusive start) and with the sentinel byte
`':'` appended (exclusive end), and the query iterates exactly the store
entries whose keys fall in that half-open range. -/
theorem c4_range_bounds (objectType : Bytes) (keys : List Bytes) (store : ChainState) :
    compoundKeyRange objectType keys =
      ((createCompoundKey objectType keys).1 ++ ['1'],
        (createCompoundKey objectType keys).1 ++ [':']) ∧
    (compoundKeyQuery store objectType keys).entries =
      store.filter (fun kv =>
        inRange (compoundKeyRange objectType keys).1 (compoundKeyRange objectType keys).2 kv.1) :=
  ⟨rfl, rfl⟩

/-- C5, counterexample.  The decimal length mark is not fixed-width: the
per-field overhead of a 1-byte field is one digit while that of a 10-byte
field is two digits, so the number of digits depends on the field's length. -/
theorem c5_counterexample :
    (createCompoundKey [] [['a']]).1.length - (['a'] : Bytes).length ≠
      (createCompoundKey [] [['a', 'b', 'c', 'd', 'e', 'f', 'g', 'h', 'i', 'j']]).1.length -
        (['a', 'b', 'c', 'd', 'e', 'f', 'g', 'h', 'i', 'j'] : Bytes).length := by decide

/-- C5, amended.  For each field, in tuple order, the encoder emits the
variable-width unpadded decimal representation of the field's byte length
(`strconv.Itoa`) followed by the field's raw bytes, and concatenates all
segments after the ObjectType with no additional delimiters. -/
theorem c5_variable_width (objectType : Bytes) (keys : List Bytes) :
    (createCompoundKey objectType keys).1 =
      objectType ++ (keys.map (fun k => itoa k.length ++ k)).flatten := by
  simp only [createCompoundKey]
  congr 1
  induction keys with
  | nil => rfl
  | cons k ks ih => simp [encodeFields, ih]

/-- C6, counterexample.  In the regression store the scan for the partial
key `["ab"]` returns no record at all — not the `"ab"` record the claim
requires (the range `["T2ab1", "T2ab:")` contains neither key).  Moreover
ascending physical-key order does not coincide with ascending lexicographic
order of the field tuples: `["ab"]` precedes `["abcdefghij"]` as tuples, yet
the 10-byte record's physical key sorts strictly below the 2-byte one. -/
theorem c6_counterexample :
    scanStore regressionStore ['T'] [['a', 'b']] = [] ∧
    keyLt (createCompoundKey ['T'] [['a', 'b', 'c', 'd', 'e', 'f', 'g', 'h', 'i', 'j']]).1
      (createCompoundKey ['T'] [['a', 'b']]).1 = true := by decide

/-- C6, amended.  A scan of any store whose entries are in strictly
ascending physical-key order returns records in that same ascending
physical-key order (this order does not in general agree with field-tuple
order), and in the regression store the scan for `["ab"]` returns no
records. -/
theorem c6_scan_ascending (store : ChainState) (objectType : Bytes) (keys : List Bytes)
    (h : store.Pairwise (fun x y => keyLt x.1 y.1 = true)) :
    (scanStore store objectType keys).Pairwise (fun x y => keyLt x.1 y.1 = true) ∧
    scanStore regressionStore ['T'] [['a', 'b']] = [] := by
  constructor
  · exact List.Pairwise.sublist (List.filter_sublist _) h
  · decide

/-- C6, witness for the amended theorem, at the regression store itself. -/
theorem c6_witness :
    (scanStore regressionStore ['T'] [['a', 'b']]).Pairwise (fun x y => keyLt x.1 y.1 = true) ∧
    scanStore regressionStore ['T'] [['a', 'b']] = [] :=
  c6_scan_ascending regressionStore ['T'] [['a', 'b']] (by decide)

/-- C7, counterexample.  Encoding does not fail on the empty tuple (the
claimed `EmptyTupleError`), nor on a field far beyond any fixed-width
capacity (the claimed `FieldTooLongError`): the error component is `nil`
in both cases. -/
theorem c7_counterexample :
    (createCompoundKey ['T'] []).2 = none ∧
    (createCompoundKey ['T'] [List.replicate 10000 'a']).2 = none :=
  ⟨rfl, rfl⟩

/-- C7, amended.  `createCompoundKey` is a pure total function with no
failure modes at all: on every ObjectType and KeyTuple (empty tuples and
arbitrarily long fields included) it returns the encoded key together with a
`nil` error. -/
theorem c7_never_fails (objectType : Bytes) (keys : List Bytes) :
    (createCompoundKey objectType keys).2 = none := rfl

/-- C8.  Round-trip: storing a payload under the compound key built from an
ObjectType and a full KeyTuple (the `PutState` of `init_marble_json`) and
then reading under the compound key built from the same ObjectType and
KeyTuple (the `GetState` of `get_marble_json`) returns exactly the stored
payload, for every prior state and every payload (the empty payload and
payloads containing digit bytes included). -/
theorem c8_roundtrip (st : ChainState) (objectType : Bytes) (fields : List Bytes)
    (payload : Bytes) :
    getExact (put st objectType fields payload) objectType fields = some payload := by
  simp [getExact, put, putState, getState]

/-- C9.  The `defer keysIter.Close()` inside `partialCompoundKeyQuery` runs
before the function returns, so on every successful call the iterator handed
to the caller (in particular the one `get_blue_marbles_json` then iterates)
has already been closed. -/
theorem c9_iterator_closed (store : ChainState) (objectType : Bytes) (keys : List Bytes) :
    (compoundKeyQuery store objectType keys).closed = true := rfl

/-- C10.  Frame property of `set_owner`: a successful invocation rewrites
state only under the raw key `args[0]`; the value stored under every other
key — in particular under any compound key `createCompoundKey "Marble"
[color, name]` different from `args[0]`, as written by `init_marble_json` —
is unchanged. -/
theorem c10_set_owner_frame (unmarshal : Bytes → Marble) (marshal : Marble → Bytes)
    (st st' : ChainState) (a0 a1 : Bytes) (rest : List Bytes) (k : Bytes)
    (hrun : set_owner unmarshal marshal st (a0 :: a1 :: rest) = some st')
    (hk : k ≠ a0) :
    getState st' k = getState st k := by
  simp only [set_owner, Option.some.injEq] at hrun
  subst hrun
  simp [putState, getState, Ne.symm hk]

/-- C10, witness: a concrete `set_owner` run over the one-entry state
`{"x" ↦ "v"}` leaves the value under the compound key
`createCompoundKey "Marble" ["a","b"]` (which differs from `args[0] = "x"`)
unchanged. -/
theorem c10_witness :
    getState [(['x'], ['j']), (['x'], ['v'])]
        (createCompoundKey ['M', 'a', 'r', 'b', 'l', 'e'] [['a'], ['b']]).1 =
      getState [(['x'], ['v'])]
        (createCompoundKey ['M', 'a', 'r', 'b', 'l', 'e'] [['a'], ['b']]).1 :=
  c10_set_owner_frame (fun _ => ⟨[], [], [], 0, []⟩) (fun _ => ['j'])
    [(['x'], ['v'])] [(['x'], ['j']), (['x'], ['v'])] ['x'] ['b'] []
    ((createCompoundKey ['M', 'a', 'r', 'b', 'l', 'e'] [['a'], ['b']]).1)
    rfl (by decide)

end TableToJson
